import Mathlib

/-!
Shallow embedding of `src/mem_table.rs` (slatedb memtable layer).

Byte strings (`bytes::Bytes`) are modelled as `List Nat`; their `Ord` is
lexicographic byte order.  The `crossbeam_skiplist::SkipMap` is modelled as a
key-sorted association list (`mapInsert` keeps it sorted and replaces an
existing key, like `SkipMap::insert`).  The `AtomicUsize` size counter is a
`Nat`; `fetch_sub` is Nat subtraction, which agrees with the wrapping
subtraction of `usize` in every reachable state because the size invariant
(proved below) shows the subtracted old-entry footprint never exceeds the
counter.  The tokio watch channel backing the durability signal is modelled
by its stored boolean value.
-/

namespace SlateDB

/-- `bytes::Bytes`: an opaque byte sequence. -/
abbrev Bytes := List Nat

/-- Lexicographic byte order on `Bytes`, mirroring `Ord` for Rust `Bytes`
(`[u8]` comparison). -/
def bytesLt : Bytes → Bytes → Bool
  | _, [] => false
  | [], _ :: _ => true
  | a :: as, b :: bs =>
    if a < b then true
    else if b < a then false
    else bytesLt as bs

/-- `RowAttributes` from `types.rs`: optional creation and expiration
timestamps (`Option<i64>`). -/
structure RowAttributes where
  ts : Option Int
  expire_ts : Option Int
deriving DecidableEq, Repr

/-- `ValueDeletable` from `types.rs`: a present value or a tombstone. -/
inductive ValueDeletable where
  | Value (v : Bytes)
  | Tombstone
deriving DecidableEq, Repr

/-- `ValueWithAttributes` (mem_table.rs line 89). -/
structure ValueWithAttributes where
  value : ValueDeletable
  attrs : RowAttributes
deriving DecidableEq, Repr

/-- `RowEntry` from `types.rs`, as produced by `MemTableIterator::next_entry_sync`. -/
structure RowEntry where
  key : Bytes
  value : ValueDeletable
  seq : Nat
  create_ts : Option Int
  expire_ts : Option Int
deriving DecidableEq, Repr

/-- `SlateDBError`: opaque error value (only its identity matters here). -/
inductive SlateDBError where
  | storage (code : Nat)
deriving DecidableEq, Repr

/-- `sizeof_attributes` (mem_table.rs lines 273-275):
`attrs.ts.map(|_| 8).unwrap_or(0)`. -/
def sizeof_attributes (attrs : RowAttributes) : Nat :=
  match attrs.ts with
  | some _ => 8
  | none => 0

/-- Lookup in the skip-map model: the value stored under `key`, if any
(`SkipMap::get`). -/
def mapGet (key : Bytes) : List (Bytes × ValueWithAttributes) → Option ValueWithAttributes
  | [] => none
  | (k, v) :: rest => if key = k then some v else mapGet key rest

/-- Insert in the skip-map model: keeps the list sorted by `bytesLt` and
replaces the entry of an existing key (`SkipMap::insert`). -/
def mapInsert (key : Bytes) (v : ValueWithAttributes) :
    List (Bytes × ValueWithAttributes) → List (Bytes × ValueWithAttributes)
  | [] => [(key, v)]
  | (k, w) :: rest =>
    if bytesLt key k then (key, v) :: (k, w) :: rest
    else if key = k then (key, v) :: rest
    else (k, w) :: mapInsert key v rest

/-- `KVTable` (mem_table.rs lines 18-23): the sorted map, the size counter,
and the boolean held by the durability watch channel. -/
structure KVTable where
  map : List (Bytes × ValueWithAttributes)
  size : Nat
  is_durable : Bool
deriving DecidableEq, Repr

namespace KVTable

/-- `KVTable::new` (lines 185-193): empty map, size 0, durability signal false. -/
def new : KVTable := { map := [], size := 0, is_durable := false }

/-- `KVTable::is_empty` (lines 195-197). -/
def is_empty (t : KVTable) : Bool := t.map.isEmpty

/-- `KVTable::get` (lines 207-209). -/
def get (t : KVTable) (key : Bytes) : Option ValueWithAttributes :=
  mapGet key t.map

/-- Footprint of one stored entry, as charged by `put`/`delete` and
uncharged by `maybe_subtract_old_val_from_size`:
key length + payload length (0 for a tombstone) + attribute footprint. -/
def entrySize (key : Bytes) (v : ValueWithAttributes) : Nat :=
  key.length +
    (match v.value with
      | ValueDeletable.Tombstone => 0
      | ValueDeletable.Value old => old.length) +
    sizeof_attributes v.attrs

/-- `KVTable::maybe_subtract_old_val_from_size` (lines 249-259). -/
def maybe_subtract_old_val_from_size (t : KVTable) (key : Bytes) : KVTable :=
  match t.get key with
  | some old_deletable => { t with size := t.size - entrySize key old_deletable }
  | none => t

/-- `KVTable::put` (lines 221-234). -/
def put (t : KVTable) (key : Bytes) (value : Bytes) (attrs : RowAttributes) : KVTable :=
  let t1 := t.maybe_subtract_old_val_from_size key
  { t1 with
    size := t1.size + (key.length + value.length + sizeof_attributes attrs),
    map := mapInsert key ⟨ValueDeletable.Value value, attrs⟩ t1.map }

/-- `KVTable::delete` (lines 236-247). -/
def delete (t : KVTable) (key : Bytes) (attrs : RowAttributes) : KVTable :=
  let t1 := t.maybe_subtract_old_val_from_size key
  { t1 with
    size := t1.size + (key.length + sizeof_attributes attrs),
    map := mapInsert key ⟨ValueDeletable.Tombstone, attrs⟩ t1.map }

/-- `KVTable::notify_durable` (lines 268-270): sends `true` on the watch
channel (the channel is alive for the table's lifetime, so `send` succeeds). -/
def notify_durable (t : KVTable) : KVTable :=
  { t with is_durable := true }

/-- `KVTable::await_durable` (lines 261-266): the loop exits without a single
`changed().await` suspension exactly when the current channel value is true. -/
def await_durable_returns_immediately (t : KVTable) : Bool :=
  t.is_durable

end KVTable

/-- Conversion of a stored entry to a `RowEntry`
(`MemTableIterator::next_entry_sync`, lines 101-109): seq is fixed at 0. -/
def toRowEntry (key : Bytes) (v : ValueWithAttributes) : RowEntry :=
  { key := key, value := v.value, seq := 0,
    create_ts := v.attrs.ts, expire_ts := v.attrs.expire_ts }

/-- One end of a Rust `RangeBounds<Bytes>`. -/
inductive Bound where
  | unbounded
  | included (k : Bytes)
  | excluded (k : Bytes)
deriving DecidableEq, Repr

/-- A key range: start and end bounds (`BytesRange`). -/
structure BytesRange where
  start : Bound
  stop : Bound
deriving DecidableEq, Repr

/-- Whether `k` satisfies the start bound. -/
def lowerOk (b : Bound) (k : Bytes) : Bool :=
  match b with
  | Bound.unbounded => true
  | Bound.included s => !(bytesLt k s)
  | Bound.excluded s => bytesLt s k

/-- Whether `k` satisfies the end bound. -/
def upperOk (b : Bound) (k : Bytes) : Bool :=
  match b with
  | Bound.unbounded => true
  | Bound.included e => !(bytesLt e k)
  | Bound.excluded e => bytesLt k e

namespace KVTable

/-- `KVTable::range` (lines 215-217) followed by exhaustively calling
`MemTableIterator::next_entry_sync`: the list of row records the iterator
yields, in map order, restricted to the range. -/
def range (t : KVTable) (r : BytesRange) : List RowEntry :=
  (t.map.filter (fun e => lowerOk r.start e.1 && upperOk r.stop e.1)).map
    (fun e => toRowEntry e.1 e.2)

/-- `KVTable::iter` (lines 211-213): `range(..)`. -/
def iter (t : KVTable) : List RowEntry :=
  t.range ⟨Bound.unbounded, Bound.unbounded⟩

end KVTable

/-- `WritableKVTable` (lines 25-27, 160-182): thin wrapper delegating to the
owned `KVTable`. -/
structure WritableKVTable where
  table : KVTable
deriving DecidableEq, Repr

namespace WritableKVTable

/-- `WritableKVTable::new` (lines 161-165). -/
def new : WritableKVTable := { table := KVTable.new }

/-- `WritableKVTable::put` (lines 171-173). -/
def put (t : WritableKVTable) (key value : Bytes) (attrs : RowAttributes) : WritableKVTable :=
  { table := t.table.put key value attrs }

/-- `WritableKVTable::delete` (lines 175-177). -/
def delete (t : WritableKVTable) (key : Bytes) (attrs : RowAttributes) : WritableKVTable :=
  { table := t.table.delete key attrs }

/-- `WritableKVTable::size` (lines 179-181). -/
def size (t : WritableKVTable) : Nat := t.table.size

end WritableKVTable

/-- One mutating call on a `KVTable`. -/
inductive Op where
  | put (key value : Bytes) (attrs : RowAttributes)
  | delete (key : Bytes) (attrs : RowAttributes)
  | notify_durable
deriving DecidableEq, Repr

/-- Apply one call. -/
def applyOp (t : KVTable) : Op → KVTable
  | Op.put key value attrs => t.put key value attrs
  | Op.delete key attrs => t.delete key attrs
  | Op.notify_durable => t.notify_durable

/-- Apply a sequence of calls in order. -/
def applyOps (ops : List Op) (t : KVTable) : KVTable :=
  ops.foldl applyOp t

/-- The table reached from `WritableKVTable::new` by a call sequence. -/
def tableOf (ops : List Op) : KVTable :=
  applyOps ops WritableKVTable.new.table

/-- Whether a call writes to the given key. -/
def Op.touches (op : Op) (k : Bytes) : Bool :=
  match op with
  | Op.put key _ _ => key = k
  | Op.delete key _ => key = k
  | Op.notify_durable => false

/-- `VecDequeKeyValueIterator` (lines 45-47): the buffered queue of rows. -/
structure VecDequeKeyValueIterator where
  records : List RowEntry
deriving DecidableEq, Repr

namespace VecDequeKeyValueIterator

/-- `next_entry` (lines 70-72): pop the front of the queue. -/
def next_entry (it : VecDequeKeyValueIterator) :
    Option RowEntry × VecDequeKeyValueIterator :=
  (it.records.head?, ⟨it.records.tail⟩)

/-- The loop of `seek` (lines 76-85): pop while the front record's key is
strictly below `next_key`. -/
def seekLoop (next_key : Bytes) : List RowEntry → List RowEntry
  | [] => []
  | r :: rest => if bytesLt r.key next_key then seekLoop next_key rest else r :: rest

/-- `seek` (lines 76-85). -/
def seek (it : VecDequeKeyValueIterator) (next_key : Bytes) : VecDequeKeyValueIterator :=
  ⟨seekLoop next_key it.records⟩

/-- The draining loop of `materialize_range` (lines 58-63).  `MergeIterator`
is an external collaborator (`merge_iterator.rs` is outside this subsystem);
it is modelled by the sequence of results its successive `next_entry` calls
produce: `Except.ok r` for a yielded row, `Except.error e` for a failure; the
sequence ends when it would yield `None`. -/
def materializeLoop : List (Except SlateDBError RowEntry) → Except SlateDBError (List RowEntry)
  | [] => Except.ok []
  | Except.error e :: _ => Except.error e
  | Except.ok r :: rest =>
    match materializeLoop rest with
    | Except.ok l => Except.ok (r :: l)
    | Except.error e => Except.error e

/-- `materialize_range` (lines 50-66), given the merge iterator's output
sequence: either the fully drained iterator or the first error. -/
def materialize_range (steps : List (Except SlateDBError RowEntry)) :
    Except SlateDBError VecDequeKeyValueIterator :=
  match materializeLoop steps with
  | Except.ok l => Except.ok ⟨l⟩
  | Except.error e => Except.error e

end VecDequeKeyValueIterator

/-! ## Order lemmas for `bytesLt` -/

theorem bytesLt_irrefl (a : Bytes) : bytesLt a a = false := by
  induction a with
  | nil => rfl
  | cons x xs ih => simp [bytesLt, ih]

theorem bytesLt_trans {a : Bytes} : ∀ {b c : Bytes},
    bytesLt a b = true → bytesLt b c = true → bytesLt a c = true := by
  induction a with
  | nil =>
    intro b c h1 h2
    cases b with
    | nil => simp [bytesLt] at h1
    | cons y ys =>
      cases c with
      | nil => simp [bytesLt] at h2
      | cons z zs => simp [bytesLt]
  | cons x xs ih =>
    intro b c h1 h2
    cases b with
    | nil => simp [bytesLt] at h1
    | cons y ys =>
      cases c with
      | nil => simp [bytesLt] at h2
      | cons z zs =>
        simp only [bytesLt] at h1 h2 ⊢
        split_ifs at h1 h2 ⊢ <;>
          first
          | rfl
          | omega
          | exact ih h1 h2

theorem bytesLt_asymm {a : Bytes} : ∀ {b : Bytes},
    bytesLt a b = true → bytesLt b a = false := by
  induction a with
  | nil =>
    intro b h
    cases b with
    | nil => simp [bytesLt] at h
    | cons y ys => simp [bytesLt]
  | cons x xs ih =>
    intro b h
    cases b with
    | nil => simp [bytesLt] at h
    | cons y ys =>
      simp only [bytesLt] at h ⊢
      split_ifs at h ⊢ <;>
        first
        | rfl
        | omega
        | exact ih h

theorem bytesLt_connex {a : Bytes} : ∀ {b : Bytes},
    bytesLt a b = false → bytesLt b a = false → a = b := by
  induction a with
  | nil =>
    intro b h1 h2
    cases b with
    | nil => rfl
    | cons y ys => simp [bytesLt] at h1
  | cons x xs ih =>
    intro b h1 h2
    cases b with
    | nil => simp [bytesLt] at h2
    | cons y ys =>
      simp only [bytesLt] at h1 h2
      split_ifs at h1 h2 <;>
        first
        | omega
        | (have hx : x = y := by omega
           have ht : xs = ys := ih h1 h2
           rw [hx, ht])

theorem bytesLt_of_not_of_ne {a b : Bytes} (h1 : bytesLt a b = false) (h2 : a ≠ b) :
    bytesLt b a = true := by
  by_contra hc
  exact h2 (bytesLt_connex h1 (by simpa using hc))

/-! ## Lemmas on the skip-map model -/

theorem mapGet_insert_self (k : Bytes) (v : ValueWithAttributes)
    (l : List (Bytes × ValueWithAttributes)) :
    mapGet k (mapInsert k v l) = some v := by
  induction l with
  | nil => simp [mapInsert, mapGet]
  | cons e rest ih =>
    obtain ⟨k1, v1⟩ := e
    simp only [mapInsert]
    split_ifs with h1 h2
    · simp [mapGet]
    · simp [mapGet]
    · simp [mapGet, h2, ih]

theorem mapGet_insert_ne {k k2 : Bytes} (hne : k ≠ k2) (v : ValueWithAttributes)
    (l : List (Bytes × ValueWithAttributes)) :
    mapGet k2 (mapInsert k v l) = mapGet k2 l := by
  induction l with
  | nil => simp [mapInsert, mapGet, Ne.symm hne]
  | cons e rest ih =>
    obtain ⟨k1, v1⟩ := e
    simp only [mapInsert]
    split_ifs with h1 h2
    · simp [mapGet, Ne.symm hne]
    · subst h2
      simp [mapGet, Ne.symm hne]
    · simp only [mapGet, ih]

theorem mem_mapInsert {k : Bytes} {v : ValueWithAttributes}
    {l : List (Bytes × ValueWithAttributes)} {e : Bytes × ValueWithAttributes}
    (h : e ∈ mapInsert k v l) : e = (k, v) ∨ e ∈ l := by
  induction l with
  | nil => simpa [mapInsert] using h
  | cons f rest ih =>
    obtain ⟨k1, v1⟩ := f
    simp only [mapInsert] at h
    by_cases h1 : bytesLt k k1
    · rw [if_pos h1, List.mem_cons] at h
      rcases h with h | h
      · exact Or.inl h
      · exact Or.inr h
    · rw [if_neg h1] at h
      by_cases h2 : k = k1
      · rw [if_pos h2, List.mem_cons] at h
        rcases h with h | h
        · exact Or.inl h
        · exact Or.inr (List.mem_cons_of_mem _ h)
      · rw [if_neg h2, List.mem_cons] at h
        rcases h with h | h
        · exact Or.inr (by simp [h])
        · rcases ih h with h3 | h3
          · exact Or.inl h3
          · exact Or.inr (List.mem_cons_of_mem _ h3)

theorem mapGet_eq_some_mem {k : Bytes} {v : ValueWithAttributes}
    {l : List (Bytes × ValueWithAttributes)} (h : mapGet k l = some v) : (k, v) ∈ l := by
  induction l with
  | nil => simp [mapGet] at h
  | cons e rest ih =>
    obtain ⟨k1, v1⟩ := e
    simp only [mapGet] at h
    split_ifs at h with h1
    · subst h1
      simp at h
      simp [h]
    · exact List.mem_cons_of_mem _ (ih h)

theorem mapGet_eq_none_iff {k : Bytes} {l : List (Bytes × ValueWithAttributes)} :
    mapGet k l = none ↔ ∀ e ∈ l, e.1 ≠ k := by
  induction l with
  | nil => simp [mapGet]
  | cons e rest ih =>
    obtain ⟨k1, v1⟩ := e
    simp only [mapGet]
    split_ifs with h1
    · subst h1
      simp
    · simp only [List.mem_cons, ne_eq]
      constructor
      · intro h f hf
        rcases hf with hf | hf
        · subst hf
          simpa using Ne.symm h1
        · exact ih.mp h f hf
      · intro h
        exact ih.mpr (fun f hf => h f (Or.inr hf))

theorem mapInsert_ne_nil (k : Bytes) (v : ValueWithAttributes)
    (l : List (Bytes × ValueWithAttributes)) : mapInsert k v l ≠ [] := by
  cases l with
  | nil => simp [mapInsert]
  | cons e rest =>
    obtain ⟨k1, v1⟩ := e
    simp only [mapInsert]
    split_ifs <;> simp

/-! ## Sortedness and size accounting -/

/-- The skip-map keeps its entries strictly sorted by key. -/
def SortedMap (l : List (Bytes × ValueWithAttributes)) : Prop :=
  List.Pairwise (fun a b => bytesLt a.1 b.1 = true) l

theorem sortedMap_insert {l : List (Bytes × ValueWithAttributes)} (hs : SortedMap l)
    (k : Bytes) (v : ValueWithAttributes) : SortedMap (mapInsert k v l) := by
  induction l with
  | nil => simp [mapInsert, SortedMap]
  | cons e rest ih =>
    obtain ⟨k1, v1⟩ := e
    rw [SortedMap, List.pairwise_cons] at hs
    obtain ⟨hs1, hs2⟩ := hs
    simp only [mapInsert]
    split_ifs with h1 h2
    · refine List.Pairwise.cons ?_ (List.Pairwise.cons hs1 hs2)
      intro b hb
      rcases List.mem_cons.mp hb with hb | hb
      · rw [hb]
        exact h1
      · exact bytesLt_trans h1 (hs1 b hb)
    · subst h2
      exact List.Pairwise.cons hs1 hs2
    · have hlt : bytesLt k1 k = true :=
        bytesLt_of_not_of_ne (by simpa using h1) h2
      refine List.Pairwise.cons ?_ (ih hs2)
      intro b hb
      rcases mem_mapInsert hb with hb | hb
      · rw [hb]
        exact hlt
      · exact hs1 b hb

/-- Sum of the footprints of all stored entries: the quantity the size
counter is meant to track. -/
def mapSize (l : List (Bytes × ValueWithAttributes)) : Nat :=
  (l.map (fun e => KVTable.entrySize e.1 e.2)).sum

theorem mapSize_cons (k : Bytes) (v : ValueWithAttributes)
    (l : List (Bytes × ValueWithAttributes)) :
    mapSize ((k, v) :: l) = KVTable.entrySize k v + mapSize l := by
  simp [mapSize]

theorem mapSize_insert_absent {k : Bytes} {l : List (Bytes × ValueWithAttributes)}
    (h : mapGet k l = none) (v : ValueWithAttributes) :
    mapSize (mapInsert k v l) = mapSize l + KVTable.entrySize k v := by
  induction l with
  | nil => simp [mapInsert, mapSize]
  | cons e rest ih =>
    obtain ⟨k1, v1⟩ := e
    simp only [mapGet] at h
    by_cases hk : k = k1
    · rw [if_pos hk] at h
      exact absurd h (by simp)
    · rw [if_neg hk] at h
      simp only [mapInsert]
      split_ifs with h1
      · simp only [mapSize_cons]
        omega
      · simp only [mapSize_cons, ih h]
        omega

theorem entrySize_le_mapSize {k : Bytes} {old : ValueWithAttributes}
    {l : List (Bytes × ValueWithAttributes)} (h : mapGet k l = some old) :
    KVTable.entrySize k old ≤ mapSize l := by
  induction l with
  | nil => simp [mapGet] at h
  | cons e rest ih =>
    obtain ⟨k1, v1⟩ := e
    simp only [mapGet] at h
    rw [mapSize_cons]
    by_cases hk : k = k1
    · rw [if_pos hk] at h
      simp only [Option.some.injEq] at h
      subst hk
      rw [h]
      omega
    · rw [if_neg hk] at h
      have := ih h
      omega

theorem mapSize_insert_present {k : Bytes} {old : ValueWithAttributes}
    {l : List (Bytes × ValueWithAttributes)} (hs : SortedMap l)
    (h : mapGet k l = some old) (v : ValueWithAttributes) :
    mapSize (mapInsert k v l) + KVTable.entrySize k old
      = mapSize l + KVTable.entrySize k v := by
  induction l with
  | nil => simp [mapGet] at h
  | cons e rest ih =>
    obtain ⟨k1, v1⟩ := e
    rw [SortedMap, List.pairwise_cons] at hs
    obtain ⟨hs1, hs2⟩ := hs
    simp only [mapGet] at h
    simp only [mapInsert]
    by_cases hk : k = k1
    · rw [if_pos hk] at h
      simp only [Option.some.injEq] at h
      subst hk
      rw [if_neg (by simp [bytesLt_irrefl]), if_pos rfl, mapSize_cons, mapSize_cons, h]
      omega
    · rw [if_neg hk] at h
      have hmem : (k, old) ∈ rest := mapGet_eq_some_mem h
      have hgt : bytesLt k1 k = true := hs1 (k, old) hmem
      rw [if_neg (by simp [bytesLt_asymm hgt]), if_neg hk,
        mapSize_cons, mapSize_cons]
      have := ih hs2 h
      omega

/-! ## Projection lemmas for the table operations -/

theorem entrySize_value (key value : Bytes) (attrs : RowAttributes) :
    KVTable.entrySize key ⟨ValueDeletable.Value value, attrs⟩
      = key.length + value.length + sizeof_attributes attrs := rfl

theorem entrySize_tombstone (key : Bytes) (attrs : RowAttributes) :
    KVTable.entrySize key ⟨ValueDeletable.Tombstone, attrs⟩
      = key.length + sizeof_attributes attrs := by
  simp [KVTable.entrySize]

theorem maybe_subtract_map (t : KVTable) (key : Bytes) :
    (t.maybe_subtract_old_val_from_size key).map = t.map := by
  unfold KVTable.maybe_subtract_old_val_from_size
  cases t.get key <;> rfl

theorem maybe_subtract_durable (t : KVTable) (key : Bytes) :
    (t.maybe_subtract_old_val_from_size key).is_durable = t.is_durable := by
  unfold KVTable.maybe_subtract_old_val_from_size
  cases t.get key <;> rfl

theorem maybe_subtract_size_none {t : KVTable} {key : Bytes} (h : t.get key = none) :
    (t.maybe_subtract_old_val_from_size key).size = t.size := by
  unfold KVTable.maybe_subtract_old_val_from_size
  rw [h]

theorem maybe_subtract_size_some {t : KVTable} {key : Bytes} {old : ValueWithAttributes}
    (h : t.get key = some old) :
    (t.maybe_subtract_old_val_from_size key).size
      = t.size - KVTable.entrySize key old := by
  unfold KVTable.maybe_subtract_old_val_from_size
  rw [h]

theorem put_map (t : KVTable) (key value : Bytes) (attrs : RowAttributes) :
    (t.put key value attrs).map
      = mapInsert key ⟨ValueDeletable.Value value, attrs⟩ t.map := by
  simp [KVTable.put, maybe_subtract_map]

theorem put_size (t : KVTable) (key value : Bytes) (attrs : RowAttributes) :
    (t.put key value attrs).size
      = (t.maybe_subtract_old_val_from_size key).size
          + (key.length + value.length + sizeof_attributes attrs) := rfl

theorem put_durable (t : KVTable) (key value : Bytes) (attrs : RowAttributes) :
    (t.put key value attrs).is_durable = t.is_durable := by
  simp [KVTable.put, maybe_subtract_durable]

theorem delete_map (t : KVTable) (key : Bytes) (attrs : RowAttributes) :
    (t.delete key attrs).map
      = mapInsert key ⟨ValueDeletable.Tombstone, attrs⟩ t.map := by
  simp [KVTable.delete, maybe_subtract_map]

theorem delete_size (t : KVTable) (key : Bytes) (attrs : RowAttributes) :
    (t.delete key attrs).size
      = (t.maybe_subtract_old_val_from_size key).size
          + (key.length + sizeof_attributes attrs) := rfl

theorem delete_durable (t : KVTable) (key : Bytes) (attrs : RowAttributes) :
    (t.delete key attrs).is_durable = t.is_durable := by
  simp [KVTable.delete, maybe_subtract_durable]

theorem get_put_self (t : KVTable) (key value : Bytes) (attrs : RowAttributes) :
    (t.put key value attrs).get key = some ⟨ValueDeletable.Value value, attrs⟩ := by
  rw [KVTable.get, put_map]
  exact mapGet_insert_self key _ t.map

theorem get_delete_self (t : KVTable) (key : Bytes) (attrs : RowAttributes) :
    (t.delete key attrs).get key = some ⟨ValueDeletable.Tombstone, attrs⟩ := by
  rw [KVTable.get, delete_map]
  exact mapGet_insert_self key _ t.map

theorem get_put_other {key k2 : Bytes} (hne : key ≠ k2) (t : KVTable)
    (value : Bytes) (attrs : RowAttributes) :
    (t.put key value attrs).get k2 = t.get k2 := by
  rw [KVTable.get, KVTable.get, put_map]
  exact mapGet_insert_ne hne _ t.map

theorem get_delete_other {key k2 : Bytes} (hne : key ≠ k2) (t : KVTable)
    (attrs : RowAttributes) :
    (t.delete key attrs).get k2 = t.get k2 := by
  rw [KVTable.get, KVTable.get, delete_map]
  exact mapGet_insert_ne hne _ t.map

/-! ## The table invariant -/

/-- Invariant of every reachable `KVTable`: the map is strictly key-sorted
and the size counter equals the total footprint of the stored entries. -/
def Inv (t : KVTable) : Prop :=
  SortedMap t.map ∧ t.size = mapSize t.map

theorem inv_new : Inv KVTable.new := by
  constructor
  · simp [KVTable.new, SortedMap]
  · simp [KVTable.new, mapSize]

theorem inv_put {t : KVTable} (h : Inv t) (key value : Bytes) (attrs : RowAttributes) :
    Inv (t.put key value attrs) := by
  obtain ⟨hsort, hsize⟩ := h
  constructor
  · rw [put_map]
    exact sortedMap_insert hsort key _
  · rw [put_map, put_size]
    cases hget : t.get key with
    | none =>
      rw [maybe_subtract_size_none hget, mapSize_insert_absent hget,
        entrySize_value]
      omega
    | some old =>
      rw [maybe_subtract_size_some hget]
      have hle : KVTable.entrySize key old ≤ mapSize t.map :=
        entrySize_le_mapSize hget
      have heq := mapSize_insert_present hsort hget
        ⟨ValueDeletable.Value value, attrs⟩
      rw [entrySize_value] at heq
      omega

theorem inv_delete {t : KVTable} (h : Inv t) (key : Bytes) (attrs : RowAttributes) :
    Inv (t.delete key attrs) := by
  obtain ⟨hsort, hsize⟩ := h
  constructor
  · rw [delete_map]
    exact sortedMap_insert hsort key _
  · rw [delete_map, delete_size]
    cases hget : t.get key with
    | none =>
      rw [maybe_subtract_size_none hget, mapSize_insert_absent hget,
        entrySize_tombstone]
      omega
    | some old =>
      rw [maybe_subtract_size_some hget]
      have hle : KVTable.entrySize key old ≤ mapSize t.map :=
        entrySize_le_mapSize hget
      have heq := mapSize_insert_present hsort hget
        ⟨ValueDeletable.Tombstone, attrs⟩
      rw [entrySize_tombstone] at heq
      omega

theorem inv_applyOp {t : KVTable} (h : Inv t) (op : Op) : Inv (applyOp t op) := by
  cases op with
  | put key value attrs => exact inv_put h key value attrs
  | delete key attrs => exact inv_delete h key attrs
  | notify_durable => exact h

theorem inv_applyOps {t : KVTable} (h : Inv t) (ops : List Op) :
    Inv (applyOps ops t) := by
  induction ops generalizing t with
  | nil => exact h
  | cons op rest ih => exact ih (inv_applyOp h op)

theorem inv_tableOf (ops : List Op) : Inv (tableOf ops) :=
  inv_applyOps inv_new ops

/-! ## Iteration lemmas -/

theorem iter_eq_map (t : KVTable) :
    t.iter = t.map.map (fun e => toRowEntry e.1 e.2) := by
  simp [KVTable.iter, KVTable.range, lowerOk, upperOk]

theorem mem_iter_of_get {t : KVTable} {key : Bytes} {v : ValueWithAttributes}
    (h : t.get key = some v) : toRowEntry key v ∈ t.iter := by
  rw [iter_eq_map]
  exact List.mem_map_of_mem _ (mapGet_eq_some_mem h)

theorem mem_fst_iff_mapGet {k : Bytes} {l : List (Bytes × ValueWithAttributes)} :
    k ∈ l.map Prod.fst ↔ (mapGet k l).isSome = true := by
  constructor
  · intro hk
    cases hget : mapGet k l with
    | some v => simp
    | none =>
      rw [mapGet_eq_none_iff] at hget
      obtain ⟨e, he, hke⟩ := List.mem_map.mp hk
      exact absurd hke (hget e he)
  · intro hs
    cases hget : mapGet k l with
    | none => rw [hget] at hs; simp at hs
    | some v => exact List.mem_map.mpr ⟨(k, v), mapGet_eq_some_mem hget, rfl⟩

theorem mapGet_of_mem_sorted {l : List (Bytes × ValueWithAttributes)}
    (hs : SortedMap l) {e : Bytes × ValueWithAttributes} (h : e ∈ l) :
    mapGet e.1 l = some e.2 := by
  induction l with
  | nil => simp at h
  | cons f rest ih =>
    obtain ⟨k1, v1⟩ := f
    rw [SortedMap, List.pairwise_cons] at hs
    obtain ⟨hs1, hs2⟩ := hs
    rcases List.mem_cons.mp h with h | h
    · subst h
      simp [mapGet]
    · have hkey : bytesLt k1 e.1 = true := hs1 e h
      have hne : e.1 ≠ k1 := by
        intro hc
        rw [hc] at hkey
        rw [bytesLt_irrefl] at hkey
        exact Bool.false_ne_true hkey
      simp only [mapGet]
      rw [if_neg hne]
      exact ih hs2 h

/-! ## Frame lemma: writes on other keys do not disturb a key's entry -/

theorem get_applyOps_untouched {key : Bytes} {ops2 : List Op}
    (h : ∀ op ∈ ops2, op.touches key = false) (t : KVTable) :
    (applyOps ops2 t).get key = t.get key := by
  induction ops2 generalizing t with
  | nil => rfl
  | cons op rest ih =>
    have hop : op.touches key = false := h op (by simp)
    have hrest : ∀ o ∈ rest, o.touches key = false := fun o ho => h o (by simp [ho])
    rw [show applyOps (op :: rest) t = applyOps rest (applyOp t op) from rfl, ih hrest]
    cases op with
    | put k v a =>
      simp only [Op.touches, decide_eq_false_iff_not] at hop
      exact get_put_other hop t v a
    | delete k a =>
      simp only [Op.touches, decide_eq_false_iff_not] at hop
      exact get_delete_other hop t a
    | notify_durable => rfl

/-! ## Claim C1 -/

/-- C1: for every sequence of calls applied to a table created by
`WritableKVTable::new()`, after each call `size()` equals the sum over all
keys currently in the map of key length + payload length (0 for a
tombstone) + 8 if the entry's creation timestamp is present else 0; the
expiration timestamp contributes nothing (`sizeof_attributes` only
inspects `ts`). -/
theorem C1_size_invariant (ops : List Op) :
    (tableOf ops).size = mapSize (tableOf ops).map :=
  (inv_tableOf ops).2

/-! ## Claim C2 -/

/-- Repeated deletes of one key, each with its own attributes. -/
def applyDeletes (key : Bytes) (attrsList : List RowAttributes) (t : KVTable) : KVTable :=
  attrsList.foldl (fun s attrs => s.delete key attrs) t

theorem delete_tombstone_same_size {t : KVTable} {key : Bytes} {c : RowAttributes}
    (hInv : Inv t) (hget : t.get key = some ⟨ValueDeletable.Tombstone, c⟩)
    (b : RowAttributes) (hb : sizeof_attributes b = sizeof_attributes c) :
    (t.delete key b).size = t.size := by
  rw [delete_size, maybe_subtract_size_some hget, entrySize_tombstone]
  have hle := entrySize_le_mapSize hget
  rw [entrySize_tombstone] at hle
  have hsize := hInv.2
  omega

/-- C2 as stated (arbitrary attrs on each delete) fails on the code: a
second delete of an already-tombstoned key whose attrs add a creation
timestamp grows `size()` by 8 (from 1 to 9 here). -/
theorem C2_counterexample :
    ((KVTable.new.delete [0] ⟨none, none⟩).delete [0] ⟨some 1, none⟩).size
      ≠ (KVTable.new.delete [0] ⟨none, none⟩).size := by decide

/-- C2 amended: for every table and key, every delete after the first
leaves `size()` unchanged provided each subsequent delete's attrs carry the
same attribute footprint (creation-timestamp presence) as the first
delete's. -/
theorem C2_repeated_delete_stable (ops : List Op) (key : Bytes) (a : RowAttributes)
    (as : List RowAttributes)
    (h : ∀ b ∈ as, sizeof_attributes b = sizeof_attributes a) :
    (applyDeletes key as ((tableOf ops).delete key a)).size
      = ((tableOf ops).delete key a).size := by
  have main : ∀ (bs : List RowAttributes) (t : KVTable), Inv t →
      (∀ b ∈ bs, sizeof_attributes b = sizeof_attributes a) →
      (∃ c, t.get key = some ⟨ValueDeletable.Tombstone, c⟩ ∧
        sizeof_attributes c = sizeof_attributes a) →
      (applyDeletes key bs t).size = t.size := by
    intro bs
    induction bs with
    | nil =>
      intro t _ _ _
      rfl
    | cons b rest ih =>
      intro t hInv hall hex
      obtain ⟨c, hc, hcs⟩ := hex
      have hb : sizeof_attributes b = sizeof_attributes a := hall b (by simp)
      have hstep : (t.delete key b).size = t.size :=
        delete_tombstone_same_size hInv hc b (by omega)
      have htail : (applyDeletes key rest (t.delete key b)).size
          = (t.delete key b).size := by
        refine ih (t.delete key b) (inv_delete hInv key b)
          (fun d hd => hall d (by simp [hd])) ?_
        exact ⟨b, get_delete_self t key b, hb⟩
      rw [show applyDeletes key (b :: rest) t
          = applyDeletes key rest (t.delete key b) from rfl]
      omega
  exact main as _ (inv_delete (inv_tableOf ops) key a) h
    ⟨a, get_delete_self _ key a, rfl⟩

/-- Witness for the amended C2: two further deletes with a creation
timestamp present, like the first delete's attrs, leave `size()` at 13. -/
theorem C2_repeated_delete_stable_witness :
    (applyDeletes [5] [⟨some 2, none⟩, ⟨some 3, none⟩]
        ((tableOf []).delete [5] ⟨some 1, none⟩)).size
      = ((tableOf []).delete [5] ⟨some 1, none⟩).size :=
  C2_repeated_delete_stable [] [5] ⟨some 1, none⟩
    [⟨some 2, none⟩, ⟨some 3, none⟩] (by decide)

/-! ## Claim C9 -/

/-- C9: a `put` or `delete` on key `k` never changes the entry observed by
`get` under any other key `k2`. -/
theorem C9_write_frame (t : KVTable) (k k2 value : Bytes) (attrs : RowAttributes)
    (h : k ≠ k2) :
    (t.put k value attrs).get k2 = t.get k2 ∧
    (t.delete k attrs).get k2 = t.get k2 :=
  ⟨get_put_other h t value attrs, get_delete_other h t attrs⟩

/-- Witness for C9 at concrete keys. -/
theorem C9_write_frame_witness :
    (KVTable.new.put [1] [7] ⟨none, none⟩).get [2] = KVTable.new.get [2] ∧
    (KVTable.new.delete [1] ⟨none, none⟩).get [2] = KVTable.new.get [2] :=
  C9_write_frame KVTable.new [1] [2] [7] ⟨none, none⟩ (by decide)

/-! ## Claim C10 -/

/-- C10: deleting a key that is not currently stored inserts a tombstone
carrying the given attrs, makes the table non-empty, and grows `size()` by
the key length plus 8 if the attrs have a creation timestamp, else by the
key length alone. -/
theorem C10_delete_absent (t : KVTable) (key : Bytes) (attrs : RowAttributes)
    (h : t.get key = none) :
    (t.delete key attrs).get key = some ⟨ValueDeletable.Tombstone, attrs⟩ ∧
    (t.delete key attrs).is_empty = false ∧
    (t.delete key attrs).size = t.size + key.length + sizeof_attributes attrs := by
  refine ⟨get_delete_self t key attrs, ?_, ?_⟩
  · rw [KVTable.is_empty, delete_map]
    cases hmap : mapInsert key ⟨ValueDeletable.Tombstone, attrs⟩ t.map with
    | nil => exact absurd hmap (mapInsert_ne_nil key _ t.map)
    | cons e rest => rfl
  · rw [delete_size, maybe_subtract_size_none h]
    omega

/-- Witness for C10: deleting a never-written key in a fresh table. -/
theorem C10_delete_absent_witness :
    (KVTable.new.delete [3, 4] ⟨some 5, none⟩).get [3, 4]
        = some ⟨ValueDeletable.Tombstone, ⟨some 5, none⟩⟩ ∧
    (KVTable.new.delete [3, 4] ⟨some 5, none⟩).is_empty = false ∧
    (KVTable.new.delete [3, 4] ⟨some 5, none⟩).size
        = KVTable.new.size + [3, 4].length + sizeof_attributes ⟨some 5, none⟩ :=
  C10_delete_absent KVTable.new [3, 4] ⟨some 5, none⟩ (by decide)

/-! ## Claim C3 -/

/-- C3: when `delete(key, attrs)` was the most recent write to `key` (later
calls, if any, write other keys), `get(key)` returns the tombstone entry
(not `None`), and bare iteration with `next_entry` yields a row record for
`key` whose value is the tombstone marker — the deleted key is not
omitted. -/
theorem C3_tombstone_visible (ops ops2 : List Op) (key : Bytes) (attrs : RowAttributes)
    (h : ∀ op ∈ ops2, op.touches key = false) :
    (applyOps ops2 ((tableOf ops).delete key attrs)).get key
        = some ⟨ValueDeletable.Tombstone, attrs⟩ ∧
    toRowEntry key ⟨ValueDeletable.Tombstone, attrs⟩
        ∈ (applyOps ops2 ((tableOf ops).delete key attrs)).iter := by
  have hget : (applyOps ops2 ((tableOf ops).delete key attrs)).get key
      = some ⟨ValueDeletable.Tombstone, attrs⟩ := by
    rw [get_applyOps_untouched h]
    exact get_delete_self _ key attrs
  exact ⟨hget, mem_iter_of_get hget⟩

/-- Witness for C3: delete `[1]`, then write another key `[2]`. -/
theorem C3_tombstone_visible_witness :
    (applyOps [Op.put [2] [9] ⟨none, none⟩]
        ((tableOf [Op.put [1] [5] ⟨none, none⟩]).delete [1] ⟨some 3, none⟩)).get [1]
        = some ⟨ValueDeletable.Tombstone, ⟨some 3, none⟩⟩ ∧
    toRowEntry [1] ⟨ValueDeletable.Tombstone, ⟨some 3, none⟩⟩
        ∈ (applyOps [Op.put [2] [9] ⟨none, none⟩]
            ((tableOf [Op.put [1] [5] ⟨none, none⟩]).delete [1] ⟨some 3, none⟩)).iter :=
  C3_tombstone_visible [Op.put [1] [5] ⟨none, none⟩] [Op.put [2] [9] ⟨none, none⟩]
    [1] ⟨some 3, none⟩ (by decide)

/-! ## Claim C4 -/

/-- C4: for every reachable table, the row records yielded by repeatedly
calling `next_entry` on `iter()` have strictly ascending keys in byte
order, contain every currently stored key exactly once (the key list has
no duplicates), and contain no other keys. -/
theorem C4_iter_sorted_complete (ops : List Op) :
    List.Pairwise (fun r s => bytesLt r.key s.key = true) (tableOf ops).iter ∧
    ((tableOf ops).iter.map RowEntry.key).Nodup ∧
    (∀ k : Bytes, k ∈ (tableOf ops).iter.map RowEntry.key
        ↔ ((tableOf ops).get k).isSome = true) := by
  have hsort := (inv_tableOf ops).1
  have hkeys : (tableOf ops).iter.map RowEntry.key
      = (tableOf ops).map.map Prod.fst := by
    rw [iter_eq_map, List.map_map]
    rfl
  have hpair : List.Pairwise (fun r s => bytesLt r.key s.key = true) (tableOf ops).iter := by
    rw [iter_eq_map]
    refine List.Pairwise.map _ ?_ hsort
    intro a b hab
    simpa [toRowEntry] using hab
  refine ⟨hpair, ?_, ?_⟩
  · rw [hkeys]
    refine List.Pairwise.map _ ?_ hsort
    intro a b hab hc
    rw [hc] at hab
    rw [bytesLt_irrefl] at hab
    exact Bool.false_ne_true hab
  · intro k
    rw [hkeys]
    exact mem_fst_iff_mapGet

/-! ## Claim C5 -/

theorem range_from_eq (t : KVTable) (b : Bytes) :
    t.range ⟨Bound.included b, Bound.unbounded⟩
      = (t.map.filter (fun e => !(bytesLt e.1 b))).map (fun e => toRowEntry e.1 e.2) := by
  simp [KVTable.range, lowerOk, upperOk]

theorem head_filter_ge_self {l : List (Bytes × ValueWithAttributes)} (hs : SortedMap l)
    {b : Bytes} {v : ValueWithAttributes} (h : mapGet b l = some v) :
    (l.filter (fun e => !(bytesLt e.1 b))).head? = some (b, v) := by
  induction l with
  | nil => simp [mapGet] at h
  | cons f rest ih =>
    obtain ⟨k1, v1⟩ := f
    rw [SortedMap, List.pairwise_cons] at hs
    obtain ⟨hs1, hs2⟩ := hs
    simp only [mapGet] at h
    rw [List.filter_cons]
    by_cases hk : b = k1
    · subst hk
      rw [if_pos rfl] at h
      simp only [Option.some.injEq] at h
      rw [if_pos (by simp [bytesLt_irrefl])]
      rw [h]
      rfl
    · rw [if_neg hk] at h
      have hmem : (b, v) ∈ rest := mapGet_eq_some_mem h
      have hlt : bytesLt k1 b = true := hs1 (b, v) hmem
      rw [if_neg (by simp [hlt])]
      exact ih hs2 h

theorem head_filter_ge {l : List (Bytes × ValueWithAttributes)} (hs : SortedMap l)
    {b : Bytes} {e : Bytes × ValueWithAttributes}
    (h : (l.filter (fun f => !(bytesLt f.1 b))).head? = some e) :
    e ∈ l ∧ bytesLt e.1 b = false ∧
      ∀ f ∈ l, bytesLt f.1 b = false → bytesLt f.1 e.1 = false := by
  induction l with
  | nil => simp at h
  | cons g rest ih =>
    obtain ⟨k1, v1⟩ := g
    rw [SortedMap, List.pairwise_cons] at hs
    obtain ⟨hs1, hs2⟩ := hs
    rw [List.filter_cons] at h
    by_cases hp : bytesLt k1 b = true
    · rw [if_neg (by simp [hp])] at h
      obtain ⟨h1, h2, h3⟩ := ih hs2 h
      refine ⟨List.mem_cons_of_mem _ h1, h2, ?_⟩
      intro f hf hfb
      rcases List.mem_cons.mp hf with hf | hf
      · rw [hf] at hfb
        simp only at hfb
        rw [hp] at hfb
        exact absurd hfb (by simp)
      · exact h3 f hf hfb
    · have hp2 : bytesLt k1 b = false := by simpa using hp
      rw [if_pos (by simp [hp2])] at h
      rw [List.head?_cons] at h
      have he : e = (k1, v1) := by simpa using h.symm
      subst he
      refine ⟨by simp, by simpa using hp2, ?_⟩
      intro f hf hfb
      rcases List.mem_cons.mp hf with hf | hf
      · rw [hf]
        exact bytesLt_irrefl k1
      · exact bytesLt_asymm (hs1 f hf)

theorem filter_ge_ne_nil_of_mem {b : Bytes} {l : List (Bytes × ValueWithAttributes)}
    {f : Bytes × ValueWithAttributes} (hf : f ∈ l) (hb : bytesLt f.1 b = false) :
    l.filter (fun g => !(bytesLt g.1 b)) ≠ [] := by
  intro hc
  have hmem : f ∈ l.filter (fun g => !(bytesLt g.1 b)) :=
    List.mem_filter.mpr ⟨hf, by simp [hb]⟩
  rw [hc] at hmem
  simp at hmem

/-- C5: for a range iterator with inclusive start bound `b` (and no end
bound): if `b` is stored, the first row yielded has key `b`; any first row
yielded has a stored key that is ≥ `b` (strictly greater when `b` is not
stored) and minimal among stored keys ≥ `b`; if no stored key is ≥ `b` the
iterator yields nothing, and if some stored key is ≥ `b` it yields
something. -/
theorem C5_range_resume (ops : List Op) (b : Bytes) :
    (∀ v, (tableOf ops).get b = some v →
        ((tableOf ops).range ⟨Bound.included b, Bound.unbounded⟩).head?
          = some (toRowEntry b v)) ∧
    (∀ r, ((tableOf ops).range ⟨Bound.included b, Bound.unbounded⟩).head? = some r →
        ((tableOf ops).get r.key).isSome = true ∧
        bytesLt r.key b = false ∧
        ((tableOf ops).get b = none → bytesLt b r.key = true) ∧
        (∀ k : Bytes, ((tableOf ops).get k).isSome = true → bytesLt k b = false →
            bytesLt k r.key = false)) ∧
    ((∀ k : Bytes, ((tableOf ops).get k).isSome = true → bytesLt k b = true) →
        (tableOf ops).range ⟨Bound.included b, Bound.unbounded⟩ = []) ∧
    (∀ k : Bytes, ((tableOf ops).get k).isSome = true → bytesLt k b = false →
        ∃ r, ((tableOf ops).range ⟨Bound.included b, Bound.unbounded⟩).head?
            = some r) := by
  have hsort := (inv_tableOf ops).1
  rw [range_from_eq]
  refine ⟨?_, ?_, ?_, ?_⟩
  · intro v hv
    rw [List.head?_map, head_filter_ge_self hsort hv]
    rfl
  · intro r hr
    rw [List.head?_map] at hr
    cases hhead : ((tableOf ops).map.filter (fun e => !(bytesLt e.1 b))).head? with
    | none =>
      rw [hhead] at hr
      simp at hr
    | some e =>
      rw [hhead] at hr
      obtain ⟨hmem, hge, hmin⟩ := head_filter_ge hsort hhead
      have hr2 : r = toRowEntry e.1 e.2 := by simpa using hr.symm
      subst hr2
      have hstored : mapGet e.1 (tableOf ops).map = some e.2 :=
        mapGet_of_mem_sorted hsort hmem
      refine ⟨by simp [KVTable.get, hstored, toRowEntry], by simpa [toRowEntry] using hge,
        ?_, ?_⟩
      · intro hb
        have hne : e.1 ≠ b := by
          intro hc
          rw [hc] at hstored
          have hb2 : mapGet b (tableOf ops).map = none := hb
          rw [hstored] at hb2
          exact Option.noConfusion hb2
        simpa [toRowEntry] using bytesLt_of_not_of_ne hge hne
      · intro k hk hkb
        obtain ⟨v, hv⟩ := Option.isSome_iff_exists.mp hk
        simpa [toRowEntry] using hmin (k, v) (mapGet_eq_some_mem hv) hkb
  · intro hall
    have hnil : (tableOf ops).map.filter (fun e => !(bytesLt e.1 b)) = [] := by
      rw [List.filter_eq_nil_iff]
      intro f hf
      have hf2 := mapGet_of_mem_sorted hsort hf
      have := hall f.1 (by simp [KVTable.get, hf2])
      simp [this]
    rw [hnil]
    rfl
  · intro k hk hkb
    obtain ⟨v, hv⟩ := Option.isSome_iff_exists.mp hk
    have hne := filter_ge_ne_nil_of_mem (mapGet_eq_some_mem hv) hkb
    cases hhead : ((tableOf ops).map.filter (fun e => !(bytesLt e.1 b))).head? with
    | none =>
      rw [List.head?_eq_none_iff] at hhead
      exact absurd hhead hne
    | some e =>
      refine ⟨toRowEntry e.1 e.2, ?_⟩
      rw [List.head?_map, hhead]
      rfl

/-- Witness for C5: range from the stored key `[2]` yields it first. -/
theorem C5_range_resume_witness :
    ((tableOf [Op.put [2] [7] ⟨none, none⟩]).range
        ⟨Bound.included [2], Bound.unbounded⟩).head?
      = some (toRowEntry [2] ⟨ValueDeletable.Value [7], ⟨none, none⟩⟩) :=
  (C5_range_resume [Op.put [2] [7] ⟨none, none⟩] [2]).1
    ⟨ValueDeletable.Value [7], ⟨none, none⟩⟩ (by decide)

/-! ## Claim C6 -/

theorem seekLoop_split (x : Bytes) (q : List RowEntry) :
    ∃ pre post, q = pre ++ post ∧ (∀ r ∈ pre, bytesLt r.key x = true) ∧
      VecDequeKeyValueIterator.seekLoop x q = post := by
  induction q with
  | nil => exact ⟨[], [], rfl, by simp, rfl⟩
  | cons r rest ih =>
    by_cases hr : bytesLt r.key x = true
    · obtain ⟨pre, post, heq, hall, hloop⟩ := ih
      refine ⟨r :: pre, post, by simp [heq], ?_, ?_⟩
      · intro s hs
        rcases List.mem_cons.mp hs with hs | hs
        · rw [hs]
          exact hr
        · exact hall s hs
      · simpa [VecDequeKeyValueIterator.seekLoop, hr] using hloop
    · refine ⟨[], r :: rest, rfl, by simp, ?_⟩
      simp [VecDequeKeyValueIterator.seekLoop, hr]

theorem seekLoop_ge {x : Bytes} {q : List RowEntry}
    (hs : List.Pairwise (fun r s => bytesLt r.key s.key = true) q) :
    ∀ r ∈ VecDequeKeyValueIterator.seekLoop x q, bytesLt r.key x = false := by
  induction q with
  | nil =>
    intro r hr
    simp [VecDequeKeyValueIterator.seekLoop] at hr
  | cons s rest ih =>
    intro r hr
    rw [List.pairwise_cons] at hs
    obtain ⟨hp1, hp2⟩ := hs
    simp only [VecDequeKeyValueIterator.seekLoop] at hr
    by_cases hsx : bytesLt s.key x = true
    · rw [if_pos hsx] at hr
      exact ih hp2 r hr
    · have hsx2 : bytesLt s.key x = false := by simpa using hsx
      rw [if_neg hsx] at hr
      rcases List.mem_cons.mp hr with hr | hr
      · rw [hr]
        exact hsx2
      · by_contra hc
        have hrx : bytesLt r.key x = true := by simpa using hc
        exact absurd (bytesLt_trans (hp1 r hr) hrx) (by simp [hsx2])

/-- C6: on a sorted buffered queue, `seek(x)` removes exactly the maximal
front run of entries with key strictly below `x` (so every remaining entry
— everything later popped — has key ≥ `x`), and it leaves the queue
unchanged whenever the front entry's key is already ≥ `x`. -/
theorem C6_seek (q : List RowEntry) (x : Bytes)
    (hs : List.Pairwise (fun r s => bytesLt r.key s.key = true) q) :
    (∃ pre post, q = pre ++ post ∧ (∀ r ∈ pre, bytesLt r.key x = true) ∧
        (VecDequeKeyValueIterator.seek ⟨q⟩ x).records = post) ∧
    (∀ r ∈ (VecDequeKeyValueIterator.seek ⟨q⟩ x).records, bytesLt r.key x = false) ∧
    (∀ r rest, q = r :: rest → bytesLt r.key x = false →
        (VecDequeKeyValueIterator.seek ⟨q⟩ x).records = q) := by
  refine ⟨seekLoop_split x q, seekLoop_ge hs, ?_⟩
  intro r rest hq hr
  subst hq
  simp [VecDequeKeyValueIterator.seek, VecDequeKeyValueIterator.seekLoop, hr]

/-- Witness for C6: the front key `[5]` is already ≥ the target `[3]`, so
seek leaves the queue unchanged. -/
theorem C6_seek_witness :
    (VecDequeKeyValueIterator.seek
        ⟨[⟨[5], ValueDeletable.Value [1], 0, none, none⟩,
          ⟨[6], ValueDeletable.Value [2], 0, none, none⟩]⟩ [3]).records
      = [⟨[5], ValueDeletable.Value [1], 0, none, none⟩,
         ⟨[6], ValueDeletable.Value [2], 0, none, none⟩] :=
  (C6_seek [⟨[5], ValueDeletable.Value [1], 0, none, none⟩,
      ⟨[6], ValueDeletable.Value [2], 0, none, none⟩] [3] (by decide)).2.2
    ⟨[5], ValueDeletable.Value [1], 0, none, none⟩
    [⟨[6], ValueDeletable.Value [2], 0, none, none⟩] rfl (by decide)

/-! ## Claim C7 -/

theorem materializeLoop_ok {steps : List (Except SlateDBError RowEntry)}
    (h : ∀ s ∈ steps, ∃ r, s = Except.ok r) :
    VecDequeKeyValueIterator.materializeLoop steps
      = Except.ok (steps.filterMap (fun s =>
          match s with
          | Except.ok r => some r
          | Except.error _ => none)) := by
  induction steps with
  | nil => rfl
  | cons s rest ih =>
    obtain ⟨r, hr⟩ := h s (by simp)
    subst hr
    have htail := ih (fun u hu => h u (by simp [hu]))
    simp [VecDequeKeyValueIterator.materializeLoop, htail]

theorem materializeLoop_error {e : SlateDBError}
    (pre rest : List (Except SlateDBError RowEntry))
    (hall : ∀ s ∈ pre, ∃ r, s = Except.ok r) :
    VecDequeKeyValueIterator.materializeLoop (pre ++ Except.error e :: rest)
      = Except.error e := by
  induction pre with
  | nil => rfl
  | cons s pre1 ih =>
    obtain ⟨r, hr⟩ := hall s (by simp)
    subst hr
    have htail := ih (fun u hu => hall u (by simp [hu]))
    simp [VecDequeKeyValueIterator.materializeLoop, htail]

/-- C7: `materialize_range` either returns the fully drained iterator (when
every merge step yields a row) or, as soon as some merge step fails, the
first such error — and then no iterator at all is returned. -/
theorem C7_materialize (steps : List (Except SlateDBError RowEntry)) :
    ((∀ s ∈ steps, ∃ r, s = Except.ok r) →
        VecDequeKeyValueIterator.materialize_range steps
          = Except.ok ⟨steps.filterMap (fun s =>
              match s with
              | Except.ok r => some r
              | Except.error _ => none)⟩) ∧
    (∀ pre e rest, steps = pre ++ Except.error e :: rest →
        (∀ s ∈ pre, ∃ r, s = Except.ok r) →
        VecDequeKeyValueIterator.materialize_range steps = Except.error e) := by
  constructor
  · intro h
    simp [VecDequeKeyValueIterator.materialize_range, materializeLoop_ok h]
  · intro pre e rest hsteps hall
    subst hsteps
    simp [VecDequeKeyValueIterator.materialize_range,
      materializeLoop_error pre rest hall]

/-- Witness for C7: a failing second merge step aborts materialization with
that error. -/
theorem C7_materialize_witness :
    VecDequeKeyValueIterator.materialize_range
        [Except.ok ⟨[1], ValueDeletable.Value [2], 0, none, none⟩,
         Except.error (SlateDBError.storage 7),
         Except.ok ⟨[3], ValueDeletable.Value [4], 0, none, none⟩]
      = Except.error (SlateDBError.storage 7) :=
  (C7_materialize
      [Except.ok ⟨[1], ValueDeletable.Value [2], 0, none, none⟩,
       Except.error (SlateDBError.storage 7),
       Except.ok ⟨[3], ValueDeletable.Value [4], 0, none, none⟩]).2
    [Except.ok ⟨[1], ValueDeletable.Value [2], 0, none, none⟩]
    (SlateDBError.storage 7)
    [Except.ok ⟨[3], ValueDeletable.Value [4], 0, none, none⟩]
    rfl
    (by
      intro s hs
      rw [List.mem_singleton] at hs
      exact ⟨_, hs⟩)

/-! ## Claim C8 -/

theorem is_durable_mono {t : KVTable} (h : t.is_durable = true) (ops : List Op) :
    (applyOps ops t).is_durable = true := by
  induction ops generalizing t with
  | nil => exact h
  | cons op rest ih =>
    rw [show applyOps (op :: rest) t = applyOps rest (applyOp t op) from rfl]
    refine ih ?_
    cases op with
    | put k v a => exact (put_durable t k v a).trans h
    | delete k a => exact (delete_durable t k a).trans h
    | notify_durable => rfl

/-- C8: the durability signal starts false at creation and only ever goes
false→true: `notify_durable` sets it true and is idempotent, no operation
resets it, and `await_durable` returns immediately (its wait loop exits
without suspending) whenever the signal is already true. -/
theorem C8_durability (t : KVTable) (ops : List Op) :
    KVTable.new.is_durable = false ∧
    t.notify_durable.is_durable = true ∧
    t.notify_durable.notify_durable = t.notify_durable ∧
    (t.is_durable = true → (applyOps ops t).is_durable = true) ∧
    (t.is_durable = true → t.await_durable_returns_immediately = true) := by
  refine ⟨rfl, rfl, rfl, ?_, ?_⟩
  · intro h
    exact is_durable_mono h ops
  · intro h
    exact h

/-- Witness for C8 on a freshly notified table. -/
theorem C8_durability_witness :
    KVTable.new.is_durable = false ∧
    KVTable.new.notify_durable.is_durable = true ∧
    KVTable.new.notify_durable.notify_durable = KVTable.new.notify_durable ∧
    (applyOps [Op.put [1] [2] ⟨none, none⟩]
        KVTable.new.notify_durable).is_durable = true ∧
    KVTable.new.notify_durable.await_durable_returns_immediately = true := by
  have h := C8_durability KVTable.new.notify_durable [Op.put [1] [2] ⟨none, none⟩]
  exact ⟨h.1, h.2.1, h.2.2.1, h.2.2.2.1 rfl, h.2.2.2.2 rfl⟩

end SlateDB
